import Mathlib

/-!
# Verification of the BTL-Python blocklist service core

A shallow embedding, in Lean 4, of the algorithmic core of the repository:

* `backend/app.py` — the `/api/check` and `/api/report` request handlers and
  their helpers `normalize_domain` and `is_valid_email`;
* `backend/import_domains.py` — the bulk-import pipeline `import_list`, its
  stricter `normalize_domain` variant, and `remove_database_duplicates`.

Strings are embedded as lists of Unicode code points (`List Nat`); `lit`
converts a Lean string literal.  Python's `str.lower` is modelled on its
ASCII fragment (`lowerC`), which is the fragment all the claims exercise.
Database tables are embedded as Lean lists of rows in table order; SQLAlchemy
queries become list filters, `scalar_one_or_none` becomes a function that
errors (`MultipleResultsFound`, a `SQLAlchemyError`) on more than one row.
`urllib.parse.urlparse(...).hostname` is modelled by `pyHostnameCore`,
including the removal of tab/CR/LF bytes, the `Invalid IPv6 URL` ValueError
on unbalanced brackets, the `rpartition('@')` userinfo split, the bracket
and port handling of `_hostinfo`, and the lowercasing + empty-to-None of the
`hostname` property.
-/

/-- Strings as lists of Unicode code points (Python `str`). -/
abbrev Str := List Nat

/-- Embed a Lean string literal as a `Str`. -/
def lit (s : String) : Str := s.data.map Char.toNat

/-- Python `ord`-level model of `str.lower` on one code point: ASCII `A`-`Z`
(65–90) map to `a`-`z` (97–122); everything else is fixed.  This is the ASCII
fragment of Python's `str.lower`. -/
def lowerC (c : Nat) : Nat := if 65 ≤ c ∧ c ≤ 90 then c + 32 else c

/-- Model of Python `str.lower` on a whole string. -/
def lowerStr (s : Str) : Str := s.map lowerC

/-- ASCII letter (either case), as used by `str.isalpha` on ASCII input. -/
def isAsciiAlpha (c : Nat) : Bool := decide ((65 ≤ c ∧ c ≤ 90) ∨ (97 ≤ c ∧ c ≤ 122))

/-- ASCII digit. -/
def isAsciiDigit (c : Nat) : Bool := decide (48 ≤ c ∧ c ≤ 57)

/-- The whitespace stripped by Python `str.strip()` (ASCII fragment:
space, tab, LF, VT, FF, CR). -/
def isPySpace (c : Nat) : Bool := decide (c = 32 ∨ c = 9 ∨ c = 10 ∨ c = 11 ∨ c = 12 ∨ c = 13)

/-- Python `s.strip()` (ASCII whitespace fragment). -/
def pyStripWs (s : Str) : Str :=
  ((s.dropWhile isPySpace).reverse.dropWhile isPySpace).reverse

/-- Python `s.strip(chars)`: remove the code points in `cs` from both ends. -/
def stripChars (cs : List Nat) (s : Str) : Str :=
  ((s.dropWhile (· ∈ cs)).reverse.dropWhile (· ∈ cs)).reverse

/-- `strStarts s p`: Python `s.startswith(p)`. -/
def strStarts : Str → Str → Bool
  | _, [] => true
  | [], _ :: _ => false
  | a :: s, b :: p => (a == b) && strStarts s p

/-- `strHas s p`: Python `p in s` (substring occurrence). -/
def strHas : Str → Str → Bool
  | [], p => p.isEmpty
  | a :: t, p => strStarts (a :: t) p || strHas t p

theorem strStarts_iff (s p : Str) : strStarts s p = true ↔ ∃ t, s = p ++ t := by
  induction p generalizing s with
  | nil => simp [strStarts]
  | cons b q ih =>
    cases s with
    | nil => simp [strStarts]
    | cons a t =>
      simp only [strStarts, Bool.and_eq_true, beq_iff_eq, ih, List.cons_append, List.cons.injEq]
      constructor
      · rintro ⟨rfl, u, rfl⟩; exact ⟨u, rfl, rfl⟩
      · rintro ⟨u, rfl, rfl⟩; exact ⟨rfl, u, rfl⟩

theorem strHas_iff (s p : Str) : strHas s p = true ↔ ∃ l r, s = l ++ p ++ r := by
  induction s with
  | nil =>
    simp only [strHas, List.isEmpty_iff]
    constructor
    · rintro rfl; exact ⟨[], [], rfl⟩
    · rintro ⟨l, r, h⟩
      rcases List.append_eq_nil.mp h.symm with ⟨h1, h2⟩
      exact (List.append_eq_nil.mp h1).2
  | cons a t ih =>
    simp only [strHas, Bool.or_eq_true, strStarts_iff, ih]
    constructor
    · rintro (⟨u, hu⟩ | ⟨l, r, rfl⟩)
      · exact ⟨[], u, by simpa using hu⟩
      · exact ⟨a :: l, r, rfl⟩
    · rintro ⟨l, r, h⟩
      cases l with
      | nil => left; exact ⟨r, by simpa using h⟩
      | cons x xs =>
        right
        simp only [List.cons_append, List.cons.injEq] at h
        exact ⟨xs, r, h.2⟩

/-- A substring occurrence puts every code point of the pattern in the string. -/
theorem mem_of_strHas {s p : Str} {c : Nat} (h : strHas s p = true) (hc : c ∈ p) : c ∈ s := by
  rcases (strHas_iff s p).mp h with ⟨l, r, rfl⟩
  simp [hc]

/-! ## Model of `urllib.parse.urlparse(u).hostname` -/

/-- Result of evaluating `urlparse(u).hostname` in Python:
`err` = `urlsplit` raised `ValueError` (unbalanced brackets in the netloc),
`noHost` = the hostname is `None` (empty), `ok h` = the lowercased hostname. -/
inductive HostRes where
  | err
  | noHost
  | ok (h : Str)
deriving DecidableEq

/-- Characters of a URL scheme (`scheme_chars` in `urllib.parse`):
letters, digits, `+`, `-`, `.`. -/
def schemeChar (c : Nat) : Bool :=
  isAsciiAlpha c || isAsciiDigit c || decide (c = 43 ∨ c = 45 ∨ c = 46)

/-- `urlsplit` removes tab (9), CR (13) and LF (10) anywhere in the URL
(`_UNSAFE_URL_BYTES_TO_REMOVE`). -/
def cleanUrl (u : Str) : Str := u.filter (fun c => !(c == 9 || c == 13 || c == 10))

/-- `urlsplit`'s scheme split: when the text before the first `:` is a
nonempty run of scheme characters starting with a letter, the scheme (and the
colon) is removed; otherwise the URL is left untouched. -/
def splitScheme (u : Str) : Str :=
  match u.dropWhile (· != 58) with
  | 58 :: rest =>
    match u.takeWhile (· != 58) with
    | [] => u
    | p :: ps => if isAsciiAlpha p && (p :: ps).all schemeChar then rest else u
  | _ => u

/-- `urlsplit`'s netloc: present only after a leading `//` of the
scheme-stripped URL, and runs until the first `/` (47), `?` (63) or `#` (35). -/
def netlocOf (u : Str) : Str :=
  match splitScheme u with
  | 47 :: 47 :: r => r.takeWhile (fun c => !(c == 47 || c == 63 || c == 35))
  | _ => []

/-- `netloc.rpartition('@')`: the part after the last `@` (64). -/
def afterLastAt (s : Str) : Str := (s.reverse.takeWhile (· != 64)).reverse

/-- The raw hostname of a netloc, per `urllib.parse._hostinfo`: drop the
userinfo up to the last `@` (64), then take the bracketed host (after the
first `[` (91), up to `]` (93)) when a `[` is present, else the text before
the first `:` (58). -/
def hostnameOf (netloc : Str) : Str :=
  if 91 ∈ afterLastAt netloc then
    (((afterLastAt netloc).dropWhile (· != 91)).drop 1).takeWhile (· != 93)
  else (afterLastAt netloc).takeWhile (· != 58)

/-- `urlparse(u).hostname` (see `urllib.parse._hostinfo` and the `hostname`
property): split off the scheme, take the netloc, raise `ValueError` on a
netloc with `[` (91) but no `]` (93) or vice versa, extract the raw
hostname; lowercase; empty means `None`. -/
def pyHostnameCore (u0 : Str) : HostRes :=
  if (91 ∈ netlocOf (cleanUrl u0)) ↔ (93 ∈ netlocOf (cleanUrl u0)) then
    if hostnameOf (netlocOf (cleanUrl u0)) = [] then .noHost
    else .ok (lowerStr (hostnameOf (netlocOf (cleanUrl u0))))
  else .err

/-! ## `backend/app.py` helpers -/

namespace App

/-- The tail of `app.py`'s `normalize_domain` once the URL `d` has been
built: take `urlparse(d).hostname` (any exception or empty hostname gives
`None`), lowercase, and strip one leading `www.`.  Note the result of a
`www.`-strip may be empty or start with `www.` again; the function performs
no further validation. -/
def appFinish (d : Str) : Option Str :=
  match pyHostnameCore d with
  | .ok h0 =>
    some (if strStarts (lowerStr h0) (lit "www.") then (lowerStr h0).drop 4 else lowerStr h0)
  | _ => none

/-- `app.py`'s `normalize_domain`: prepend `http://` when the string has no
`://`, then extract and clean the hostname. -/
def normalize_domain (domain : Str) : Option Str :=
  if domain = [] then none
  else appFinish (if strHas domain (lit "://") then domain else lit "http://" ++ domain)

end App

/-! ## Model of `re.match(EMAIL_REGEX, s)` with
`EMAIL_REGEX = r'^[a-zA-Z0-9._%+-]+@[a-zA-Z0-9.-]+\.[a-zA-Z]{2,}$'`. -/

/-- The local-part character class `[a-zA-Z0-9._%+-]`. -/
def emailLocalChar (c : Nat) : Bool :=
  isAsciiAlpha c || isAsciiDigit c || decide (c = 46 ∨ c = 95 ∨ c = 37 ∨ c = 43 ∨ c = 45)

/-- The domain-part character class `[a-zA-Z0-9.-]`. -/
def emailDomChar (c : Nat) : Bool :=
  isAsciiAlpha c || isAsciiDigit c || decide (c = 46 ∨ c = 45)

/-- The reversed text after the last `.` (46) of `r2` (the whole reversed
string when `r2` has no dot). -/
def tldRev (r2 : Str) : Str := r2.reverse.takeWhile (· != 46)

/-- The text before the last `.` (46) of `r2`. -/
def midPart (r2 : Str) : Str := ((r2.reverse.dropWhile (· != 46)).drop 1).reverse

/-- The dot-split part of the email regex on the text `r2` that must end
exactly at the anchor: `[a-zA-Z0-9.-]+\.[a-zA-Z]{2,}`.  The final
`[a-zA-Z]{2,}` excludes `.`, so the `\.` can only match the last dot of
`r2`; `(tldRev r2).length < r2.length` states that a dot exists. -/
def emailTail2 (r2 : Str) : Bool :=
  decide ((tldRev r2).length < r2.length) && (!(midPart r2).isEmpty) &&
    (midPart r2).all emailDomChar && decide (2 ≤ (tldRev r2).length) &&
    (tldRev r2).all isAsciiAlpha

/-- The part of the email regex after the `@`: `$` matches at the end of the
string or just before one final newline (10). -/
def emailTail (r : Str) : Bool :=
  emailTail2 (if r.getLast? == some 10 then r.dropLast else r)

/-- `re.match` of the anchored email regex.  The local class excludes `@`
(64), so the `+` must consume exactly the maximal class run before the first
`@`, which must be followed by a literal `@`. -/
def emailMatch (s : Str) : Bool :=
  match s.drop (s.takeWhile emailLocalChar).length with
  | a :: r => (a == 64) && (!(s.takeWhile emailLocalChar).isEmpty) && emailTail r
  | [] => false

namespace App

/-- `app.py`'s `is_valid_email`. -/
def is_valid_email (email : Str) : Bool := emailMatch email

end App

/-- The item kinds of the service (`ALLOWED_ITEM_TYPES`). -/
inductive Kind where
  | domain
  | email
deriving DecidableEq

/-- Normalization as performed inline by `check_item` and `report_item`:
domains via `App.normalize_domain`, emails validated raw by
`is_valid_email` and then lowercased. -/
def normalizeApp : Kind → Str → Option Str
  | .domain, v => App.normalize_domain v
  | .email, v => if App.is_valid_email v then some (lowerStr v) else none

/-! ## Store rows and the `/api/check`, `/api/report` handlers -/

/-- A row of `whitelisted_items` (fields the handlers read). -/
structure WRow where
  id : Nat
  item_type : Kind
  value : Str
deriving DecidableEq

/-- A row of `blocked_domains` / `blocked_emails` (fields the code reads). -/
structure BRow where
  id : Nat
  value : Str
  status : Str
  source : Str
deriving DecidableEq

/-- A row of `reported_items` (fields the handler reads and writes). -/
structure RRow where
  item_type : Kind
  value : Str
  reason : Str
  source : Str
  status : Str
deriving DecidableEq

/-- SQLAlchemy `Result.scalar_one_or_none`: `none` for no row, the row for
exactly one, and a `MultipleResultsFound` error (a `SQLAlchemyError`) for
more than one row. -/
def scalarOneOrNone : List α → Except Unit (Option α)
  | [] => .ok none
  | [x] => .ok (some x)
  | _ => .error ()

/-- The whitelist query of `check_item` / `report_item`:
`item_type == kind AND lower(value) == key` (case-insensitive on the stored
value). -/
def wlMatches (wl : List WRow) (k : Kind) (key : Str) : List WRow :=
  wl.filter (fun w => w.item_type == k && lowerStr w.value == key)

/-- The blocklist query of `check_item`:
`value == key AND status == 'active'` (exact comparison on the stored value). -/
def blMatches (tbl : List BRow) (key : Str) : List BRow :=
  tbl.filter (fun b => b.value == key && b.status == lit "active")

/-- `check_item` queries `blocked_domains` for kind `domain` and
`blocked_emails` for kind `email`. -/
def blTable (bd be : List BRow) : Kind → List BRow
  | .domain => bd
  | .email => be

/-- Outcome of `GET /api/check`. -/
inductive CheckResult where
  | invalid
  | dbError
  | whitelisted (w : WRow)
  | blocked (b : BRow)
  | safe
deriving DecidableEq

/-- `check_item` of `app.py` on tables `wl` (whitelisted_items), `bd`
(blocked_domains), `be` (blocked_emails): validate and normalize the input
(empty normalized values fail the `if not normalized_value` check), query the
whitelist first (case-insensitively), then the kind's blocklist table for an
`active` row.  A query returning several rows raises through the
`SQLAlchemyError` handler (`dbError`). -/
def checkResolve (wl : List WRow) (bd be : List BRow) (k : Kind) (key : Str) : CheckResult :=
  match scalarOneOrNone (wlMatches wl k key) with
  | .error _ => .dbError
  | .ok (some w) => .whitelisted w
  | .ok none =>
    match scalarOneOrNone (blMatches (blTable bd be k) key) with
    | .error _ => .dbError
    | .ok (some b) => .blocked b
    | .ok none => .safe

/-- Input handling of `check_item`: normalization failure, or a falsy
(empty) normalized value, is a 400 response. -/
def checkItem (wl : List WRow) (bd be : List BRow) (k : Kind) (raw : Str) : CheckResult :=
  match normalizeApp k raw with
  | none => .invalid
  | some key => if key = [] then .invalid else checkResolve wl bd be k key

/-- Outcome of `POST /api/report`. -/
inductive ReportResult where
  | invalid
  | ignoredWhitelisted
  | alreadyReported
  | created
deriving DecidableEq

/-- The pending-report existence predicate of `report_item`:
`item_type == kind AND value == key AND status == 'pending'`. -/
def pendingMatch (k : Kind) (key : Str) (r : RRow) : Bool :=
  r.item_type == k && r.value == key && r.status == lit "pending"

/-- `report_item` of `app.py`: validate and normalize; if a whitelist row
matches (case-insensitively) return `ignored_whitelisted` without writing; if
a `pending` report for `(kind, key)` exists return `already_reported` without
writing; otherwise insert a new `pending` report.  The blocklist is never
consulted.  Returns the outcome and the resulting `reported_items` table. -/
def reportResolve (wl : List WRow) (reports : List RRow) (k : Kind) (key : Str)
    (reason source : Str) : ReportResult × List RRow :=
  if wl.any (fun w => w.item_type == k && lowerStr w.value == key) then
    (.ignoredWhitelisted, reports)
  else if reports.any (pendingMatch k key) then
    (.alreadyReported, reports)
  else
    (.created, reports ++ [⟨k, key, reason, source, lit "pending"⟩])

/-- Input handling of `report_item`: normalization failure, or a falsy
(empty) normalized value, is a 400 response. -/
def reportItem (wl : List WRow) (reports : List RRow) (k : Kind) (raw : Str)
    (reason source : Str) : ReportResult × List RRow :=
  match normalizeApp k raw with
  | none => (.invalid, reports)
  | some key =>
    if key = [] then (.invalid, reports)
    else reportResolve wl reports k key reason source

/-! ## Lowercase-invariance of normalized keys -/

theorem lowerC_idem (c : Nat) : lowerC (lowerC c) = lowerC c := by
  unfold lowerC; split_ifs <;> omega

theorem lowerStr_idem (s : Str) : lowerStr (lowerStr s) = lowerStr s := by
  simp only [lowerStr, List.map_map, Function.comp]
  simp [lowerC_idem]

theorem lowerStr_drop (s : Str) (n : Nat) : lowerStr (s.drop n) = (lowerStr s).drop n := by
  simp [lowerStr, List.map_drop]

/-- Every normalized key produced by the handlers is fixed by lowercasing. -/
theorem normalizeApp_lower (k : Kind) (raw key : Str)
    (h : normalizeApp k raw = some key) : lowerStr key = key := by
  cases k with
  | email =>
    simp only [normalizeApp] at h
    split at h
    · cases h; exact lowerStr_idem raw
    · cases h
  | domain =>
    simp only [normalizeApp, App.normalize_domain] at h
    split at h
    · cases h
    · unfold App.appFinish at h
      split at h
      · cases h
        split
        · rw [← lowerStr_drop, lowerStr_idem, lowerStr_drop]
        · exact lowerStr_idem _
      · cases h

theorem map_eq_self_mem {α : Type} {f : α → α} :
    ∀ {l : List α}, l.map f = l → ∀ a ∈ l, f a = a := by
  intro l
  induction l with
  | nil => intro _ a ha; cases ha
  | cons x t ih =>
    intro h a ha
    simp only [List.map_cons, List.cons.injEq] at h
    rcases List.mem_cons.mp ha with rfl | ht
    · exact h.1
    · exact ih h.2 a ht

/-- A lowercase-fixed string contains no ASCII uppercase letter. -/
theorem not_upper_of_lower {key : Str} (h : lowerStr key = key) {c : Nat} (hc : c ∈ key) :
    ¬(65 ≤ c ∧ c ≤ 90) := by
  intro hub
  have := map_eq_self_mem h c hc
  unfold lowerC at this
  rw [if_pos hub] at this
  omega

/-! ## `scalar_one_or_none` inversions -/

theorem scalarOneOrNone_ok_some {α : Type} : ∀ {l : List α} {x : α},
    scalarOneOrNone l = .ok (some x) → l = [x] := by
  intro l x h
  match l with
  | [] => simp [scalarOneOrNone] at h
  | [y] =>
    simp only [scalarOneOrNone, Except.ok.injEq, Option.some.injEq] at h
    rw [h]
  | a :: b :: t => simp [scalarOneOrNone] at h

theorem scalarOneOrNone_ne_ok_none {α : Type} {l : List α} (hl : l ≠ []) :
    scalarOneOrNone l ≠ .ok none := by
  match l with
  | [] => exact absurd rfl hl
  | [y] => simp [scalarOneOrNone]
  | a :: b :: t => simp [scalarOneOrNone]

theorem checkItem_norm {wl : List WRow} {bd be : List BRow} {k : Kind} {raw key : Str}
    (hn : normalizeApp k raw = some key) (hk : key ≠ []) :
    checkItem wl bd be k raw = checkResolve wl bd be k key := by
  unfold checkItem
  rw [hn]
  exact if_neg hk

theorem reportItem_norm {wl : List WRow} {reports : List RRow} {k : Kind}
    {raw key reason source : Str}
    (hn : normalizeApp k raw = some key) (hk : key ≠ []) :
    reportItem wl reports k raw reason source = reportResolve wl reports k key reason source := by
  unfold reportItem
  rw [hn]
  exact if_neg hk

/-! ## Claim C1 — whitelist priority in `check_item` -/

/-- C1 (counterexample): with two whitelist rows whose values differ only in
case — both allowed by the `(item_type, value)` uniqueness constraint — the
case-insensitive whitelist query returns two rows, `scalar_one_or_none`
raises `MultipleResultsFound`, and `check_item` answers with a 500 database
error instead of the claimed `whitelisted`, even though the normalized value
`example.com` is present in both the whitelist and the active blocklist. -/
theorem C1_counterexample :
    checkItem [⟨1, .domain, lit "Example.com"⟩, ⟨2, .domain, lit "example.com"⟩]
        [⟨3, lit "example.com", lit "active", lit "feed"⟩] [] .domain (lit "example.com")
      = .dbError ∧
    ∀ w : WRow,
      checkItem [⟨1, .domain, lit "Example.com"⟩, ⟨2, .domain, lit "example.com"⟩]
          [⟨3, lit "example.com", lit "active", lit "feed"⟩] [] .domain (lit "example.com")
        ≠ .whitelisted w := by
  have h : checkItem [⟨1, .domain, lit "Example.com"⟩, ⟨2, .domain, lit "example.com"⟩]
      [⟨3, lit "example.com", lit "active", lit "feed"⟩] [] .domain (lit "example.com")
      = .dbError := by decide
  refine ⟨h, ?_⟩
  intro w hw
  rw [h] at hw
  exact CheckResult.noConfusion hw

/-- C1 (amended): for every kind and normalized value present both in the
whitelist and, with status `active`, in the kind's blocklist table, the
whitelist query is performed first, so `check_item` never returns `blocked`;
and whenever the case-insensitive whitelist query matches exactly one row,
it returns `whitelisted` with that row as detail. -/
theorem C1_whitelist_priority (wl : List WRow) (bd be : List BRow) (k : Kind)
    (raw key : Str) (w : WRow) (b : BRow)
    (hn : normalizeApp k raw = some key) (hk : key ≠ [])
    (hw : w ∈ wl) (hwt : w.item_type = k) (hwv : w.value = key)
    (hb : b ∈ blTable bd be k) (hbv : b.value = key) (hbs : b.status = lit "active") :
    (∀ b2, checkItem wl bd be k raw ≠ .blocked b2) ∧
    (∀ w2, wlMatches wl k key = [w2] → checkItem wl bd be k raw = .whitelisted w2) := by
  have hkey : lowerStr key = key := normalizeApp_lower k raw key hn
  have hwm : w ∈ wlMatches wl k key := by
    simp only [wlMatches, List.mem_filter, Bool.and_eq_true, beq_iff_eq]
    exact ⟨hw, hwt, by rw [hwv, hkey]⟩
  have hne : wlMatches wl k key ≠ [] := by
    intro hcon; rw [hcon] at hwm; cases hwm
  constructor
  · intro b2 hc
    rw [checkItem_norm hn hk] at hc
    unfold checkResolve at hc
    cases hscal : scalarOneOrNone (wlMatches wl k key) with
    | error e => rw [hscal] at hc; simp at hc
    | ok o =>
      cases o with
      | none => exact scalarOneOrNone_ne_ok_none hne hscal
      | some w2 => rw [hscal] at hc; simp at hc
  · intro w2 hm
    rw [checkItem_norm hn hk]
    unfold checkResolve
    rw [hm]
    rfl

/-- C1 (witness): a concrete state with a unique whitelist match and an
active block row for the same key, resolved to `whitelisted`. -/
theorem C1_witness :
    checkItem [⟨1, .domain, lit "example.com"⟩]
        [⟨3, lit "example.com", lit "active", lit "feed"⟩] [] .domain (lit "example.com")
      = .whitelisted ⟨1, .domain, lit "example.com"⟩ :=
  (C1_whitelist_priority [⟨1, .domain, lit "example.com"⟩]
      [⟨3, lit "example.com", lit "active", lit "feed"⟩] [] .domain
      (lit "example.com") (lit "example.com")
      ⟨1, .domain, lit "example.com"⟩ ⟨3, lit "example.com", lit "active", lit "feed"⟩
      (by decide) (by decide) (by decide) (by decide) (by decide)
      (by decide) (by decide) (by decide)).2
    ⟨1, .domain, lit "example.com"⟩ (by decide)

/-! ## Claim C6 — reports for actively blocked values -/

/-- C6 (counterexample): `bad.com` has an active `BlockedDomain` row (so
`check_item` answers `blocked`), yet `report_item` — whose code never queries
the blocklist — creates a new pending report and returns `201 created`
rather than the claimed `ignored_already_blocked`. -/
theorem C6_counterexample :
    checkItem [] [⟨1, lit "bad.com", lit "active", lit "feed"⟩] [] .domain (lit "bad.com")
      = .blocked ⟨1, lit "bad.com", lit "active", lit "feed"⟩ ∧
    reportItem [] [] .domain (lit "bad.com") (lit "looks bad") (lit "ext")
      = (.created, [⟨.domain, lit "bad.com", lit "looks bad", lit "ext", lit "pending"⟩]) := by
  constructor
  · decide
  · decide

/-- C6 (amended): `report_item` never consults the blocklist.  For a value
with an active block row of the same kind, when no whitelist row matches and
no pending report exists, the report is accepted: a new `pending` row is
appended and the outcome is `created`; no `ignored_already_blocked` outcome
exists in the code. -/
theorem C6_report_ignores_blocklist (wl : List WRow) (reports : List RRow)
    (bd be : List BRow) (k : Kind) (raw key reason source : Str) (b : BRow)
    (hn : normalizeApp k raw = some key) (hk : key ≠ [])
    (hb : b ∈ blTable bd be k) (hbv : b.value = key) (hbs : b.status = lit "active")
    (hwl : wl.any (fun w => w.item_type == k && lowerStr w.value == key) = false)
    (hpend : reports.any (pendingMatch k key) = false) :
    reportItem wl reports k raw reason source
      = (.created, reports ++ [⟨k, key, reason, source, lit "pending"⟩]) := by
  rw [reportItem_norm hn hk]
  unfold reportResolve
  rw [hwl, hpend]
  rfl

/-- C6 (witness): the amended behavior at a concrete store. -/
theorem C6_witness :
    reportItem [] [⟨.domain, lit "other.com", lit "r", lit "s", lit "pending"⟩]
        .domain (lit "bad.com") (lit "looks bad") (lit "ext")
      = (.created, [⟨.domain, lit "other.com", lit "r", lit "s", lit "pending"⟩,
          ⟨.domain, lit "bad.com", lit "looks bad", lit "ext", lit "pending"⟩]) :=
  C6_report_ignores_blocklist [] [⟨.domain, lit "other.com", lit "r", lit "s", lit "pending"⟩]
    [⟨1, lit "bad.com", lit "active", lit "feed"⟩] [] .domain
    (lit "bad.com") (lit "bad.com") (lit "looks bad") (lit "ext")
    ⟨1, lit "bad.com", lit "active", lit "feed"⟩
    (by decide) (by decide) (by decide) (by decide) (by decide) (by decide) (by decide)

/-! ## Claim C7 — report suppression -/

/-- C7: a report for a whitelisted value is answered `ignored_whitelisted`
and writes nothing; a report for a value with an existing pending report is
answered `already_reported` and writes nothing, so the number of pending
rows for the key (one, in the claimed scenario) is unchanged. -/
theorem C7_report_suppression (wl : List WRow) (reports : List RRow) (k : Kind)
    (raw key reason source : Str)
    (hn : normalizeApp k raw = some key) (hk : key ≠ []) :
    ((∃ w ∈ wl, w.item_type = k ∧ w.value = key) →
      reportItem wl reports k raw reason source = (.ignoredWhitelisted, reports)) ∧
    ((¬ ∃ w ∈ wl, w.item_type = k ∧ lowerStr w.value = key) →
      ∀ r0 ∈ reports, pendingMatch k key r0 = true →
      reportItem wl reports k raw reason source = (.alreadyReported, reports) ∧
      ((reportItem wl reports k raw reason source).2.filter (pendingMatch k key)).length
        = (reports.filter (pendingMatch k key)).length) := by
  have hkey : lowerStr key = key := normalizeApp_lower k raw key hn
  constructor
  · rintro ⟨w, hw, hwt, hwv⟩
    rw [reportItem_norm hn hk]
    unfold reportResolve
    have hany : wl.any (fun w => w.item_type == k && lowerStr w.value == key) = true := by
      rw [List.any_eq_true]
      exact ⟨w, hw, by simp [hwt, hwv, hkey]⟩
    rw [hany]
    rfl
  · intro hno r0 hr0 hp
    have hany : wl.any (fun w => w.item_type == k && lowerStr w.value == key) = false := by
      rw [← Bool.not_eq_true, List.any_eq_true]
      rintro ⟨w, hw, hwp⟩
      simp only [Bool.and_eq_true, beq_iff_eq] at hwp
      exact hno ⟨w, hw, hwp.1, hwp.2⟩
    have hpend : reports.any (pendingMatch k key) = true := by
      rw [List.any_eq_true]
      exact ⟨r0, hr0, hp⟩
    have hres : reportItem wl reports k raw reason source = (.alreadyReported, reports) := by
      rw [reportItem_norm hn hk]
      unfold reportResolve
      rw [hany, hpend]
      rfl
    exact ⟨hres, by rw [hres]⟩

/-- C7 (witness): both suppressions at concrete stores. -/
theorem C7_witness :
    reportItem [⟨1, .domain, lit "good.com"⟩] [] .domain (lit "good.com")
        (lit "r") (lit "s")
      = (.ignoredWhitelisted, []) ∧
    reportItem [] [⟨.domain, lit "bad.com", lit "r0", lit "s0", lit "pending"⟩]
        .domain (lit "bad.com") (lit "r") (lit "s")
      = (.alreadyReported, [⟨.domain, lit "bad.com", lit "r0", lit "s0", lit "pending"⟩]) := by
  constructor
  · exact (C7_report_suppression [⟨1, .domain, lit "good.com"⟩] [] .domain
      (lit "good.com") (lit "good.com") (lit "r") (lit "s") (by decide) (by decide)).1
      ⟨⟨1, .domain, lit "good.com"⟩, by decide, by decide, by decide⟩
  · exact ((C7_report_suppression [] [⟨.domain, lit "bad.com", lit "r0", lit "s0", lit "pending"⟩]
      .domain (lit "bad.com") (lit "bad.com") (lit "r") (lit "s") (by decide) (by decide)).2
      (by rintro ⟨w, hw, hcon⟩; cases hw)
      ⟨.domain, lit "bad.com", lit "r0", lit "s0", lit "pending"⟩ (by decide) (by decide)).1

/-! ## Claim C10 — asymmetric matching semantics in `check_item` -/

/-- C10: the blocklist lookup compares the stored value verbatim against the
(lowercase) normalized key, so a `blocked` answer can only carry a row whose
stored value has no ASCII uppercase letter; the whitelist lookup lowercases
the stored value first, so a whitelist row spelled with uppercase letters can
still match. -/
theorem C10_case_sensitivity :
    (∀ (wl : List WRow) (bd be : List BRow) (k : Kind) (raw : Str) (b : BRow),
      checkItem wl bd be k raw = .blocked b →
      ∀ c ∈ b.value, ¬(65 ≤ c ∧ c ≤ 90)) ∧
    (∃ (wl : List WRow) (bd be : List BRow) (k : Kind) (raw : Str) (w : WRow),
      checkItem wl bd be k raw = .whitelisted w ∧ ∃ c ∈ w.value, 65 ≤ c ∧ c ≤ 90) := by
  constructor
  · intro wl bd be k raw b h c hc
    unfold checkItem at h
    split at h
    · exact absurd h (by simp)
    · rename_i key hn
      split at h
      · exact absurd h (by simp)
      · unfold checkResolve at h
        split at h
        · exact absurd h (by simp)
        · exact absurd h (by simp)
        · split at h
          · exact absurd h (by simp)
          · rename_i b2 hbl
            simp only [CheckResult.blocked.injEq] at h
            subst h
            have hmem : b2 ∈ blMatches (blTable bd be k) key := by
              rw [scalarOneOrNone_ok_some hbl]
              exact List.mem_singleton.mpr rfl
            have hbv : b2.value = key := by
              simp only [blMatches, List.mem_filter, Bool.and_eq_true, beq_iff_eq] at hmem
              exact hmem.2.1
            have hkey : lowerStr key = key := normalizeApp_lower k raw key hn
            rw [hbv] at hc
            exact not_upper_of_lower hkey hc
          · exact absurd h (by simp)
  · refine ⟨[⟨1, .domain, lit "Example.com"⟩], [], [], .domain, lit "example.com",
      ⟨1, .domain, lit "Example.com"⟩, by decide, ?_⟩
    exact ⟨69, by decide, by decide⟩

/-- C10 (witness): a concrete `blocked` answer, whose stored value the main
theorem certifies to be free of ASCII uppercase letters. -/
theorem C10_witness :
    checkItem [] [⟨1, lit "bad.com", lit "active", lit "feed"⟩] [] .domain (lit "bad.com")
      = .blocked ⟨1, lit "bad.com", lit "active", lit "feed"⟩ ∧
    ∀ c ∈ lit "bad.com", ¬(65 ≤ c ∧ c ≤ 90) := by
  have h : checkItem [] [⟨1, lit "bad.com", lit "active", lit "feed"⟩] [] .domain
      (lit "bad.com") = .blocked ⟨1, lit "bad.com", lit "active", lit "feed"⟩ := by decide
  exact ⟨h, fun c hc => C10_case_sensitivity.1 [] [⟨1, lit "bad.com", lit "active", lit "feed"⟩]
    [] .domain (lit "bad.com") ⟨1, lit "bad.com", lit "active", lit "feed"⟩ h c hc⟩

/-! ## `backend/import_domains.py` — strict normalizer and import pipeline -/

namespace Importer

/-- One `\d{1,3}` group: consume the maximal digit run (the regex engine's
greedy match cannot backtrack usefully here, since the following token is
never a digit) and require 1–3 digits. -/
def octet (s : Str) : Option Str :=
  if 1 ≤ (s.takeWhile isAsciiDigit).length ∧ (s.takeWhile isAsciiDigit).length ≤ 3 then
    some (s.drop (s.takeWhile isAsciiDigit).length)
  else none

/-- `\d{1,3}\.`. -/
def dotOctet (s : Str) : Option Str :=
  match octet s with
  | some (46 :: r) => some r
  | _ => none

/-- Python's `$` anchor: end of string, or just before one final newline. -/
def endOfMatch (s : Str) : Bool := s == ([] : Str) || s == [10]

/-- `re.match(r"^\d{1,3}\.\d{1,3}\.\d{1,3}\.\d{1,3}(:\d+)?$", s) is not None`. -/
def ipv4Match (s : Str) : Bool :=
  match dotOctet s with
  | none => false
  | some s1 =>
    match dotOctet s1 with
    | none => false
    | some s2 =>
      match dotOctet s2 with
      | none => false
      | some s3 =>
        match octet s3 with
        | none => false
        | some r =>
          endOfMatch r ||
          (match r with
           | 58 :: r2 =>
             !(r2.takeWhile isAsciiDigit).isEmpty &&
               endOfMatch (r2.drop (r2.takeWhile isAsciiDigit).length)
           | _ => false)

/-- `re.search(r":\d+$", s) is not None`: the string ends (up to one final
newline) in a colon followed by at least one digit. -/
def colonPortEnd (s : Str) : Bool :=
  let s2 := if s.getLast? == some 10 then s.dropLast else s
  let r := s2.reverse
  !(r.takeWhile isAsciiDigit).isEmpty &&
    ((r.drop (r.takeWhile isAsciiDigit).length).head? == some 58)

/-- The character sieve of `import_domains.normalize_domain`: the two chained
`re.search` checks reject exactly the characters outside `[a-z0-9\-\._]`. -/
def validHostChar (c : Nat) : Bool :=
  decide ((97 ≤ c ∧ c ≤ 122) ∨ (48 ≤ c ∧ c ≤ 57) ∨ c = 45 ∨ c = 46 ∨ c = 95)

/-- The tail of `import_domains.normalize_domain` after the `domain` variable
has been rebuilt (`d2`): `urlparse(d2).hostname` with the
`domain.split(':')[0]` fallback when the hostname is empty (but not when
`urlparse` raised), one `www.`-strip, a `.`-strip, the character sieve, and
the structural label checks. -/
def importFinish (d2 : Str) (schemePresent : Bool) : Option Str :=
  let host? : Option Str :=
    match pyHostnameCore d2 with
    | .ok h => some h
    | .noHost =>
      if schemePresent = false ∧ 46 ∈ d2 ∧ ¬(32 ∈ d2) then some (d2.takeWhile (· != 58))
      else none
    | .err => none
  match host? with
  | none => none
  | some h0 =>
    let h1 := if strStarts h0 (lit "www.") then h0.drop 4 else h0
    let h2 := stripChars [46] h1
    if h2 = [] then none
    else if h2.any (fun c => !validHostChar c) then none
    else if ¬(46 ∈ h2) ∨ h2.head? = some 46 ∨ h2.getLast? = some 46 ∨
        h2.head? = some 45 ∨ h2.getLast? = some 45 then none
    else some h2

/-- `import_domains.normalize_domain` after the initial
`domain.strip().lower()` (argument `d1`): the early IPv4 and colon
rejections, then the `domain` rebuild (strip dots and prepend `http://` when
no `://` is present; prepend `http:` to protocol-relative strings), then
`importFinish`. -/
def normalizeStripped (d1 : Str) : Option Str :=
  if d1 = [] then none
  else if ipv4Match d1 then none
  else if 58 ∈ d1 ∧ colonPortEnd d1 = false ∧ ¬(91 ∈ d1) then none
  else if strHas d1 (lit "://") = false then
    (if stripChars [46] d1 = [] then none
     else importFinish (lit "http://" ++ stripChars [46] d1) false)
  else if strStarts d1 (lit "//") then importFinish (lit "http:" ++ d1) true
  else importFinish d1 true

/-- `import_domains.py`'s `normalize_domain`. -/
def normalize_domain (domain0 : Str) : Option Str :=
  if domain0 = [] then none
  else normalizeStripped (lowerStr (pyStripWs domain0))

end Importer

/-- Worker for `chunksOf`: structurally recursive on a fuel bound so that
the kernel can evaluate it. -/
def chunksOfAux (n : Nat) : Nat → List α → List (List α)
  | _, [] => []
  | 0, _ :: _ => []
  | Nat.succ f, a :: t =>
    if n == 0 then [] else ((a :: t).take n) :: chunksOfAux n f ((a :: t).drop n)

/-- Chunking of a work list into consecutive pieces of at most `n` items, as
done with `DEFAULT_CHUNK_SIZE = 500` by both the existence check of
`import_list` and the delete loop of `remove_database_duplicates`. -/
def chunksOf (n : Nat) (l : List α) : List (List α) := chunksOfAux n l.length l

theorem chunksOfAux_flatten {α : Type} (n : Nat) (hn : 0 < n) :
    ∀ (f : Nat) (l : List α), l.length ≤ f → (chunksOfAux n f l).flatten = l := by
  intro f
  induction f with
  | zero =>
    intro l hl
    have hnil : l = [] := List.eq_nil_of_length_eq_zero (Nat.le_zero.mp hl)
    subst hnil
    rfl
  | succ f ih =>
    intro l hl
    cases l with
    | nil => rfl
    | cons a t =>
      rw [chunksOfAux, if_neg (by simp; omega)]
      have hdrop : ((a :: t).drop n).length ≤ f := by
        rw [List.length_drop]
        simp only [List.length_cons] at hl ⊢
        omega
      rw [List.flatten_cons, ih ((a :: t).drop n) hdrop]
      exact List.take_append_drop n (a :: t)

theorem chunksOf_flatten {α : Type} (n : Nat) (hn : 0 < n) (l : List α) :
    (chunksOf n l).flatten = l :=
  chunksOfAux_flatten n hn l.length l le_rfl

namespace Importer

/-- Per-file counters of `import_list` (`added`, `skipped_exists_db`,
`skipped_invalid`, `skipped_dup_file`, `errors`); the function's Python
return value is `(added, skipped_exists_db + skipped_invalid +
skipped_dup_file, errors)`. -/
structure ImportStats where
  added : Nat
  skippedDb : Nat
  skippedInvalid : Nat
  skippedDupFile : Nat
  errors : Nat
deriving DecidableEq

/-- State of the line-reading loop of `import_list`:
`processed_values_in_file` (a set, modelled as the insertion-ordered list
`seen`), `valid_items_to_check`, and the two file-stage counters. -/
structure LineAcc where
  seen : List Str
  valids : List Str
  skippedInvalid : Nat
  skippedDupFile : Nat
deriving DecidableEq

/-- `value.split()[-1]`: the last whitespace-separated token. -/
def lastToken (s : Str) : Str :=
  ((s.reverse.dropWhile isPySpace).takeWhile (fun c => !isPySpace c)).reverse

/-- The per-line domain preprocessing of `import_list`: strip Adblock
options/anchors (`$`, `^`) and same-line comments (`#`) by keeping the prefix
before the first occurrence, handle the `||domain` and hosts-file
(`0.0.0.0 `, `127.0.0.1 `) shapes, then strip leading/trailing `.` and
spaces. -/
def preprocessDomainLine (v0 : Str) : Str :=
  let v3 := ((v0.takeWhile (· != 36)).takeWhile (· != 94)).takeWhile (· != 35)
  let v4 := if strStarts v3 (lit "||") then v3.drop 2
            else if strStarts v3 (lit "0.0.0.0 ") || strStarts v3 (lit "127.0.0.1 ") then
              lastToken v3
            else v3
  stripChars [46, 32] v4

/-- One iteration of the line loop of `import_list`: strip the line, skip
blanks and `#`/`!` comments, preprocess and normalize (domains) or lowercase
and validate (emails), count invalid lines, and deduplicate within the file. -/
def processLine (k : Kind) (acc : LineAcc) (line : Str) : LineAcc :=
  let v := pyStripWs line
  if v = [] ∨ v.head? = some 35 ∨ v.head? = some 33 then acc
  else
    match k with
    | .domain =>
      if preprocessDomainLine v = [] then acc
      else
        match normalize_domain (preprocessDomainLine v) with
        | none => { acc with skippedInvalid := acc.skippedInvalid + 1 }
        | some n =>
          if n ∈ acc.seen then { acc with skippedDupFile := acc.skippedDupFile + 1 }
          else { acc with seen := acc.seen ++ [n], valids := acc.valids ++ [n] }
    | .email =>
      if emailMatch (lowerStr v) then
        if lowerStr v ∈ acc.seen then { acc with skippedDupFile := acc.skippedDupFile + 1 }
        else { acc with seen := acc.seen ++ [lowerStr v], valids := acc.valids ++ [lowerStr v] }
      else { acc with skippedInvalid := acc.skippedInvalid + 1 }

/-- Step 1 of `import_list` over the whole file. -/
def fileAcc (k : Kind) (lines : List Str) : LineAcc :=
  lines.foldl (processLine k) ⟨[], [], 0, 0⟩

/-- The stored values of the target table. -/
def dbValues (db : List BRow) : List Str := db.map BRow.value

/-- Step 2 of `import_list`: the `existing_in_db` set, built by querying the
table for each 500-item chunk of the file's unique values and accumulating
the values found. -/
def existingInDb (db : List BRow) (valids : List Str) : List Str :=
  (chunksOf 500 valids).foldl
    (fun s chunk => s ++ chunk.filter (fun v => decide (v ∈ dbValues db))) []

/-- Step 3 of `import_list`: the values to insert are the file's unique valid
values not found in the database. -/
def toInsertOf (db : List BRow) (k : Kind) (lines : List Str) : List Str :=
  (fileAcc k lines).valids.filter
    (fun v => !decide (v ∈ existingInDb db (fileAcc k lines).valids))

/-- The rows built by step 3/4: `source` is the `import_<basename>` tag,
`status` is `'active'`; ids are assigned by the database sequence (modelled
as consecutive ids above the current maximum). -/
def newRows (nextId : Nat) (tag : Str) : List Str → List BRow
  | [] => []
  | v :: t => ⟨nextId, v, lit "active", tag⟩ :: newRows (nextId + 1) tag t

/-- The current maximum primary key of the table. -/
def maxId (db : List BRow) : Nat := db.foldr (fun r m => max r.id m) 0

/-- `import_list` of `import_domains.py` on table `db`.  `bulkOk` is the
environment's verdict on the single `bulk_insert_mappings` + `commit` of
step 4: `false` models an `IntegrityError` (or other `SQLAlchemyError`)
raised by the insert, upon which the code rolls back the whole batch, adds
`len(items_to_insert_mappings)` to `errors`, resets `added` to 0 and leaves
the table unchanged — there is no per-item retry.  Existing rows are never
updated: values already present (whatever their `status`) are only counted
in `skipped_exists_db`. -/
def import_list (db : List BRow) (k : Kind) (lines : List Str) (sourceTag : Str)
    (bulkOk : Bool) : List BRow × ImportStats :=
  if (fileAcc k lines).valids = [] then
    (db, ⟨0, 0, (fileAcc k lines).skippedInvalid, (fileAcc k lines).skippedDupFile, 0⟩)
  else if toInsertOf db k lines = [] then
    (db, ⟨0, (existingInDb db (fileAcc k lines).valids).length,
      (fileAcc k lines).skippedInvalid, (fileAcc k lines).skippedDupFile, 0⟩)
  else if bulkOk then
    (db ++ newRows (maxId db + 1) sourceTag (toInsertOf db k lines),
     ⟨(toInsertOf db k lines).length, (existingInDb db (fileAcc k lines).valids).length,
      (fileAcc k lines).skippedInvalid, (fileAcc k lines).skippedDupFile, 0⟩)
  else
    (db, ⟨0, (existingInDb db (fileAcc k lines).valids).length,
      (fileAcc k lines).skippedInvalid, (fileAcc k lines).skippedDupFile,
      (toInsertOf db k lines).length⟩)

/-- A row of the `data_version` store postulated by the specification for
sync clients (`{data_type, version, last_updated}`). -/
structure VRow where
  dataType : Str
  version : Nat
deriving DecidableEq

/-- `import_list` together with the external version store: the body of
`import_list` (import_domains.py lines 232–434) contains no statement that
reads or writes any version/`data_version` table — no such table or tracker
exists anywhere in the repository — so the version store is threaded through
unchanged. -/
def import_list_tracked (db : List BRow) (versions : List VRow) (k : Kind)
    (lines : List Str) (sourceTag : Str) (bulkOk : Bool) :
    (List BRow × List VRow) × ImportStats :=
  (((import_list db k lines sourceTag bulkOk).1, versions),
   (import_list db k lines sourceTag bulkOk).2)

end Importer

/-! ## Claim C3 — rejection of bare IPv4 literals -/

/-- C3 (counterexample): the `normalize_domain` used by the API handlers
(`app.py`) performs no IPv4 check at all: `192.168.1.1` normalizes to itself
and `check_item` treats it as a valid key (answering `safe` on an empty
store) instead of rejecting it as invalid. -/
theorem C3_counterexample :
    App.normalize_domain (lit "192.168.1.1") = some (lit "192.168.1.1") ∧
    checkItem [] [] [] .domain (lit "192.168.1.1") = .safe := by
  constructor
  · decide
  · decide

/-- C3 (amended): only the import pipeline's `normalize_domain`
(`import_domains.py`) rejects bare IPv4 literals: every string whose
stripped, lowercased form matches `^\d{1,3}(\.\d{1,3}){3}(:\d+)?$` is
rejected as invalid; the API-side `normalize_domain` in `app.py` accepts
such literals unchanged. -/
theorem C3_import_rejects_ipv4 (s : Str)
    (h : Importer.ipv4Match (lowerStr (pyStripWs s)) = true) :
    Importer.normalize_domain s = none := by
  unfold Importer.normalize_domain
  split
  · rfl
  · simp [Importer.normalizeStripped, h]

/-- C3 (witness): the amended rejection at the concrete literal of the
claim. -/
theorem C3_witness :
    Importer.ipv4Match (lowerStr (pyStripWs (lit "192.168.1.1"))) = true ∧
    Importer.normalize_domain (lit "192.168.1.1") = none :=
  ⟨by decide, C3_import_rejects_ipv4 (lit "192.168.1.1") (by decide)⟩

/-! ## Claim C5 — re-ingestion of inactive entries -/

/-- C5 (counterexample): re-importing `a.com`, which exists as an `inactive`
row, leaves the table completely unchanged — status still `inactive`, no
source merged, nothing added; the value is merely counted in
`skipped_exists_db` (the existence check of `import_list` has no status
filter and matched rows are only skipped). -/
theorem C5_counterexample :
    Importer.import_list [⟨1, lit "a.com", lit "inactive", lit "old"⟩] .domain
        [lit "a.com"] (lit "import_f.txt") true
      = ([⟨1, lit "a.com", lit "inactive", lit "old"⟩], ⟨0, 1, 0, 0, 0⟩) := by decide

theorem foldl_append_filter {α : Type} (p : α → Bool) (cs : List (List α)) (s : List α) :
    cs.foldl (fun s c => s ++ c.filter p) s = s ++ cs.flatten.filter p := by
  induction cs generalizing s with
  | nil => simp
  | cons c t ih => simp [ih, List.filter_append, List.append_assoc]

/-- The chunked existence check computes exactly the set of file values
present in the table. -/
theorem existingInDb_eq (db : List BRow) (valids : List Str) :
    Importer.existingInDb db valids
      = valids.filter (fun v => decide (v ∈ Importer.dbValues db)) := by
  unfold Importer.existingInDb
  rw [foldl_append_filter, chunksOf_flatten 500 (by omega) valids]
  simp

theorem newRows_value : ∀ (vals : List Str) (nextId : Nat) (tag : Str) (r : BRow),
    r ∈ Importer.newRows nextId tag vals → r.value ∈ vals := by
  intro vals
  induction vals with
  | nil => intro _ _ r h; cases h
  | cons v t ih =>
    intro nextId tag r h
    rcases List.mem_cons.mp h with rfl | h2
    · exact List.mem_cons_self v t
    · exact List.mem_cons_of_mem v (ih _ tag r h2)

/-- C5 (amended): `import_list` never updates existing rows.  Whatever the
file contains, the resulting table is the old table (every row byte-for-byte
unchanged, so an `inactive` entry stays `inactive` with its old `source`)
followed by newly inserted rows whose values were not previously stored. -/
theorem C5_import_inserts_only (db : List BRow) (k : Kind) (lines : List Str)
    (tag : Str) (bulkOk : Bool) :
    ∃ ns, (Importer.import_list db k lines tag bulkOk).1 = db ++ ns ∧
      ∀ r ∈ ns, r.value ∉ Importer.dbValues db := by
  unfold Importer.import_list
  split
  · exact ⟨[], by simp, by simp⟩
  · split
    · exact ⟨[], by simp, by simp⟩
    · split
      · refine ⟨Importer.newRows (Importer.maxId db + 1) tag (Importer.toInsertOf db k lines),
          rfl, ?_⟩
        intro r hr hmem
        have hv := newRows_value _ _ _ r hr
        unfold Importer.toInsertOf at hv
        rw [List.mem_filter] at hv
        obtain ⟨hvv, hnotex⟩ := hv
        rw [existingInDb_eq] at hnotex
        simp only [Bool.not_eq_true', decide_eq_false_iff_not] at hnotex
        exact hnotex (List.mem_filter.mpr ⟨hvv, by simp [hmem]⟩)
      · exact ⟨[], by simp, by simp⟩

/-! ## Claim C8 — handling of uniqueness violations during bulk insert -/

/-- C8 (counterexample): when the single bulk insert of the batch fails with
an `IntegrityError` (uniqueness violation), the one item of the batch is
counted in `errors` (`errors = 1`), nothing is retried individually and
nothing is inserted — contradicting the claim that such members are treated
as benign already-exists outcomes and never counted as errors. -/
theorem C8_counterexample :
    Importer.import_list [] .domain [lit "a.com"] (lit "import_f.txt") false
      = ([], ⟨0, 0, 0, 0, 1⟩) := by decide

/-- C8 (amended): on a uniqueness violation during the bulk insert the code
rolls back the whole batch, counts every member of the batch in `errors`
(`errors += num_to_insert`), resets `added` to 0 and leaves the table
unchanged; there is no individual retry. -/
theorem C8_bulk_failure (db : List BRow) (k : Kind) (lines : List Str) (tag : Str)
    (h : 0 < (Importer.import_list db k lines tag true).2.added) :
    (Importer.import_list db k lines tag false).1 = db ∧
    (Importer.import_list db k lines tag false).2.added = 0 ∧
    (Importer.import_list db k lines tag false).2.errors
      = (Importer.import_list db k lines tag true).2.added := by
  unfold Importer.import_list at h ⊢
  split at h
  · simp at h
  · rename_i h1
    split at h
    · simp at h
    · rename_i h2
      simp only [if_neg h1, if_neg h2]
      simp

/-- C8 (witness): the amended behavior at a concrete one-item batch. -/
theorem C8_witness :
    (Importer.import_list [] .domain [lit "a.com"] (lit "import_f.txt") false).1 = [] ∧
    (Importer.import_list [] .domain [lit "a.com"] (lit "import_f.txt") false).2.added = 0 ∧
    (Importer.import_list [] .domain [lit "a.com"] (lit "import_f.txt") false).2.errors
      = (Importer.import_list [] .domain [lit "a.com"] (lit "import_f.txt") true).2.added :=
  C8_bulk_failure [] .domain [lit "a.com"] (lit "import_f.txt") (by decide)

/-! ## Claim C9 — version stamps -/

/-- C9 (counterexample): an import run that successfully adds a row leaves
the external version record exactly as it was (version 7, not strictly
larger): `import_list` contains no version-advancing statement. -/
theorem C9_counterexample :
    (Importer.import_list_tracked [] [⟨lit "blocklist_domains", 7⟩] .domain
        [lit "a.com"] (lit "import_f.txt") true).2.added = 1 ∧
    ((Importer.import_list_tracked [] [⟨lit "blocklist_domains", 7⟩] .domain
        [lit "a.com"] (lit "import_f.txt") true).1).2 = [⟨lit "blocklist_domains", 7⟩] := by
  constructor
  · decide
  · decide

/-- C9 (amended): no import run — successful or not, row-adding or not —
changes any version record: the repository has no `data_version` store and
`import_list` never touches one. -/
theorem C9_no_version_update (db : List BRow) (versions : List Importer.VRow) (k : Kind)
    (lines : List Str) (tag : Str) (bulkOk : Bool) :
    ((Importer.import_list_tracked db versions k lines tag bulkOk).1).2 = versions := rfl

/-! ## `remove_database_duplicates` of `import_domains.py` -/

namespace Importer

/-- The primary keys of the rows holding value `v` (the group of `v`). -/
def groupIds (rows : List BRow) (v : Str) : List Nat :=
  (rows.filter (fun r => r.value == v)).map BRow.id

/-- SQL `MIN` over a list of keys. -/
def listMin? : List Nat → Option Nat
  | [] => none
  | a :: t =>
    match listMin? t with
    | none => some a
    | some m => some (min a m)

/-- The scalar subquery `SELECT MIN(id) ... WHERE value IN chunk GROUP BY
value`: one minimal id per value of the chunk that occurs in the table. -/
def minPkSet (rows : List BRow) (chunk : List Str) : List Nat :=
  chunk.filterMap (fun v => listMin? (groupIds rows v))

/-- The chunk's DELETE statement: remove the rows whose value is in the
chunk and whose id is not one of the per-value minima. -/
def deleteChunk (chunk : List Str) (rows : List BRow) : List BRow :=
  rows.filter (fun r => !(decide (r.value ∈ chunk)) || decide (r.id ∈ minPkSet rows chunk))

/-- Step 1 of `remove_database_duplicates`: the distinct values whose group
holds more than one row (`GROUP BY value HAVING COUNT(id) > 1`). -/
def dupValues (rows : List BRow) : List Str :=
  ((rows.map BRow.value).dedup).filter
    (fun v => decide (1 < (rows.filter (fun r => r.value == v)).length))

/-- `remove_database_duplicates`: find the duplicated values, then delete the
non-minimal rows chunk by chunk (500 values per chunk, each chunk committed
independently); returns the table and the number of rows deleted. -/
def remove_database_duplicates (rows : List BRow) : List BRow × Nat :=
  ((chunksOf 500 (dupValues rows)).foldl (fun acc c => deleteChunk c acc) rows,
   rows.length - ((chunksOf 500 (dupValues rows)).foldl (fun acc c => deleteChunk c acc) rows).length)

/-- The row-retention predicate that the chunked deletion realizes once the
values in `S` have been processed: a row survives unless its value is in `S`
and its id is not the minimum of its group (minima taken in the original
table). -/
def keepP (rows0 : List BRow) (S : List Str) (r : BRow) : Bool :=
  !(decide (r.value ∈ S)) || decide (listMin? (groupIds rows0 r.value) = some r.id)

end Importer

/-! ## Claim C4 — deduplication keeps the minimal id -/

theorem listMin?_mem : ∀ {l : List Nat} {m : Nat}, Importer.listMin? l = some m → m ∈ l := by
  intro l
  induction l with
  | nil => intro m h; simp [Importer.listMin?] at h
  | cons a t ih =>
    intro m h
    simp only [Importer.listMin?] at h
    cases ht : Importer.listMin? t with
    | none =>
      rw [ht] at h
      injection h with h
      subst h
      exact List.mem_cons_self a t
    | some mt =>
      rw [ht] at h
      injection h with h
      subst h
      rcases Nat.le_total a mt with hle | hle
      · rw [Nat.min_eq_left hle]; exact List.mem_cons_self a t
      · rw [Nat.min_eq_right hle]; exact List.mem_cons_of_mem a (ih ht)

theorem listMin?_isSome (a : Nat) (t : List Nat) : Importer.listMin? (a :: t) ≠ none := by
  simp only [Importer.listMin?]
  split <;> simp

theorem mem_groupIds {rows : List BRow} {v : Str} {i : Nat} :
    i ∈ Importer.groupIds rows v ↔ ∃ r ∈ rows, r.value = v ∧ r.id = i := by
  simp only [Importer.groupIds, List.mem_map, List.mem_filter, Bool.and_eq_true, beq_iff_eq]
  constructor
  · rintro ⟨r, ⟨hr, hv⟩, hid⟩
    exact ⟨r, hr, hv, hid⟩
  · rintro ⟨r, hr, hv, hid⟩
    exact ⟨r, ⟨hr, hv⟩, hid⟩

theorem nodup_row_eq {rows : List BRow} (h : (rows.map BRow.id).Nodup)
    {r1 r2 : BRow} (h1 : r1 ∈ rows) (h2 : r2 ∈ rows) (hid : r1.id = r2.id) : r1 = r2 :=
  List.inj_on_of_nodup_map h h1 h2 hid

theorem minPkSet_iff {rows : List BRow} (hids : (rows.map BRow.id).Nodup)
    {chunk : List Str} {r : BRow} (hr : r ∈ rows) :
    r.id ∈ Importer.minPkSet rows chunk ↔
      r.value ∈ chunk ∧ Importer.listMin? (Importer.groupIds rows r.value) = some r.id := by
  constructor
  · intro h
    rcases List.mem_filterMap.mp h with ⟨v, hv, hmin⟩
    rcases mem_groupIds.mp (listMin?_mem hmin) with ⟨r2, hr2, hval, hid⟩
    have heq : r2 = r := nodup_row_eq hids hr2 hr hid
    subst heq
    rw [hval]
    exact ⟨hv, hmin⟩
  · rintro ⟨hc, hm⟩
    exact List.mem_filterMap.mpr ⟨r.value, hc, hm⟩

theorem groupIds_filter_keepP (rows0 : List BRow) (S : List Str) (v : Str) (hv : v ∉ S) :
    Importer.groupIds (rows0.filter (Importer.keepP rows0 S)) v
      = Importer.groupIds rows0 v := by
  unfold Importer.groupIds
  rw [List.filter_filter]
  congr 1
  apply List.filter_congr
  intro r _
  by_cases hrv : r.value = v
  · have hk : Importer.keepP rows0 S r = true := by
      unfold Importer.keepP
      rw [hrv]
      simp [hv]
    simp [hk]
  · simp [hrv]

theorem minPkSet_filter_keepP (rows0 : List BRow) (S chunk : List Str)
    (hdisj : ∀ v ∈ chunk, v ∉ S) :
    Importer.minPkSet (rows0.filter (Importer.keepP rows0 S)) chunk
      = Importer.minPkSet rows0 chunk := by
  unfold Importer.minPkSet
  apply List.filterMap_congr
  intro v hv
  rw [groupIds_filter_keepP rows0 S v (hdisj v hv)]

theorem deleteChunk_step (rows0 : List BRow) (hids : (rows0.map BRow.id).Nodup)
    (S chunk : List Str) (hdisj : ∀ v ∈ chunk, v ∉ S) :
    Importer.deleteChunk chunk (rows0.filter (Importer.keepP rows0 S))
      = rows0.filter (Importer.keepP rows0 (S ++ chunk)) := by
  unfold Importer.deleteChunk
  rw [minPkSet_filter_keepP rows0 S chunk hdisj, List.filter_filter]
  apply List.filter_congr
  intro r hr
  unfold Importer.keepP
  rw [Bool.eq_iff_iff]
  simp only [Bool.and_eq_true, Bool.or_eq_true, Bool.not_eq_true', decide_eq_false_iff_not,
    decide_eq_true_eq, List.mem_append, minPkSet_iff hids hr]
  by_cases hS : r.value ∈ S <;> by_cases hC : r.value ∈ chunk <;>
    by_cases hm : Importer.listMin? (Importer.groupIds rows0 r.value) = some r.id <;>
      simp [hS, hC, hm]

theorem foldl_deleteChunk (rows0 : List BRow) (hids : (rows0.map BRow.id).Nodup) :
    ∀ (CS : List (List Str)) (S : List Str), (S ++ CS.flatten).Nodup →
      CS.foldl (fun acc c => Importer.deleteChunk c acc)
          (rows0.filter (Importer.keepP rows0 S))
        = rows0.filter (Importer.keepP rows0 (S ++ CS.flatten)) := by
  intro CS
  induction CS with
  | nil => intro S _; simp
  | cons C CS ih =>
    intro S h
    rw [List.flatten_cons] at h
    have hdisj : ∀ v ∈ C, v ∉ S := by
      intro v hv hvS
      exact (List.disjoint_of_nodup_append h) hvS (List.mem_append_left _ hv)
    rw [List.foldl_cons, deleteChunk_step rows0 hids S C hdisj,
      ih (S ++ C) (by rw [List.append_assoc]; exact h)]
    rw [List.flatten_cons, List.append_assoc]

theorem mem_dupValues {rows : List BRow} {v : Str} :
    v ∈ Importer.dupValues rows ↔
      v ∈ rows.map BRow.value ∧ 1 < (rows.filter (fun r => r.value == v)).length := by
  unfold Importer.dupValues
  rw [List.mem_filter, List.mem_dedup]
  simp

theorem dupValues_nodup (rows : List BRow) : (Importer.dupValues rows).Nodup :=
  List.Nodup.filter _ (List.nodup_dedup _)

/-- The chunked deletion loop of `remove_database_duplicates` keeps exactly
the rows that are not non-minimal duplicates. -/
theorem remove_duplicates_eq_filter (rows : List BRow) (hids : (rows.map BRow.id).Nodup) :
    (Importer.remove_database_duplicates rows).1
      = rows.filter (Importer.keepP rows (Importer.dupValues rows)) := by
  show (chunksOf 500 (Importer.dupValues rows)).foldl
      (fun acc c => Importer.deleteChunk c acc) rows
    = rows.filter (Importer.keepP rows (Importer.dupValues rows))
  have h0 : rows.filter (Importer.keepP rows []) = rows := by
    rw [List.filter_eq_self]
    intro r _
    unfold Importer.keepP
    simp
  have hflat : (chunksOf 500 (Importer.dupValues rows)).flatten = Importer.dupValues rows :=
    chunksOf_flatten 500 (by omega) _
  calc (chunksOf 500 (Importer.dupValues rows)).foldl
        (fun acc c => Importer.deleteChunk c acc) rows
      = (chunksOf 500 (Importer.dupValues rows)).foldl
          (fun acc c => Importer.deleteChunk c acc)
          (rows.filter (Importer.keepP rows [])) := by rw [h0]
    _ = rows.filter (Importer.keepP rows
          ([] ++ (chunksOf 500 (Importer.dupValues rows)).flatten)) :=
        foldl_deleteChunk rows hids _ []
          (by rw [List.nil_append, hflat]; exact dupValues_nodup rows)
    _ = rows.filter (Importer.keepP rows (Importer.dupValues rows)) := by
        rw [List.nil_append, hflat]

theorem filter_id_eq {rows : List BRow} (hids : (rows.map BRow.id).Nodup)
    {r0 : BRow} (h0 : r0 ∈ rows) :
    rows.filter (fun r => r.id == r0.id) = [r0] := by
  induction rows with
  | nil => cases h0
  | cons x t ih =>
    rw [List.map_cons, List.nodup_cons] at hids
    rcases List.mem_cons.mp h0 with rfl | hmem
    · rw [List.filter_cons_of_pos (by simp)]
      rw [List.filter_eq_nil_iff.mpr]
      intro r hr
      simp only [beq_iff_eq]
      intro he
      exact hids.1 (he ▸ List.mem_map.mpr ⟨r, hr, rfl⟩)
    · have hx : (x.id == r0.id) = false := by
        simp only [beq_eq_false_iff_ne, ne_eq]
        intro he
        exact hids.1 (he ▸ List.mem_map.mpr ⟨r0, hmem, rfl⟩)
      rw [List.filter_cons, hx]
      simp only [Bool.false_eq_true, if_false]
      exact ih hids.2 hmem

/-- C4: after `Deduplicate(kind)` completes, for every value present in the
targeted table exactly one row remains, and it is the row with the smallest
primary key among the rows that held that value (primary keys are unique). -/
theorem C4_dedup_keeps_min (rows : List BRow) (hids : (rows.map BRow.id).Nodup)
    (v : Str) (hv : v ∈ rows.map BRow.value) :
    ∃ r, r ∈ rows ∧ r.value = v ∧
      Importer.listMin? (Importer.groupIds rows v) = some r.id ∧
      (Importer.remove_database_duplicates rows).1.filter (fun x => x.value == v) = [r] := by
  rcases List.mem_map.mp hv with ⟨rv, hrv, hrvv⟩
  have hgmem : rv.id ∈ Importer.groupIds rows v := mem_groupIds.mpr ⟨rv, hrv, hrvv, rfl⟩
  cases hmin : Importer.listMin? (Importer.groupIds rows v) with
  | none =>
    exfalso
    cases hgl : Importer.groupIds rows v with
    | nil => rw [hgl] at hgmem; cases hgmem
    | cons a t => rw [hgl] at hmin; exact listMin?_isSome a t hmin
  | some m =>
    rcases mem_groupIds.mp (listMin?_mem hmin) with ⟨r0, hr0, hr0v, hr0id⟩
    refine ⟨r0, hr0, hr0v, by rw [hr0id], ?_⟩
    rw [remove_duplicates_eq_filter rows hids, List.filter_filter]
    have hcongr : ∀ r ∈ rows,
        ((r.value == v) && Importer.keepP rows (Importer.dupValues rows) r)
          = (r.id == r0.id) := by
      intro r hr
      by_cases hid : r.id = r0.id
      · have heq : r = r0 := nodup_row_eq hids hr hr0 hid
        subst heq
        rw [Bool.eq_iff_iff]
        constructor
        · intro _; simp
        · intro _
          simp only [Bool.and_eq_true, beq_iff_eq]
          refine ⟨hr0v, ?_⟩
          unfold Importer.keepP
          by_cases hdv : r.value ∈ Importer.dupValues rows
          · rw [hr0v] at hdv ⊢
            simp [hdv, hmin, hr0id]
          · simp [hdv]
      · rw [Bool.eq_iff_iff]
        simp only [Bool.and_eq_true, beq_iff_eq]
        constructor
        · rintro ⟨hval, hkeep⟩
          exfalso
          unfold Importer.keepP at hkeep
          by_cases hdv : v ∈ Importer.dupValues rows
          · rw [hval] at hkeep
            simp only [hdv, decide_True, Bool.not_true, Bool.false_or,
              decide_eq_true_eq] at hkeep
            rw [hmin] at hkeep
            injection hkeep with hkeep
            exact hid (by rw [← hkeep, hr0id])
          · have hle : (rows.filter (fun x => x.value == v)).length ≤ 1 := by
              by_contra hgt
              exact hdv (mem_dupValues.mpr ⟨hv, by omega⟩)
            have hrg : r ∈ rows.filter (fun x => x.value == v) :=
              List.mem_filter.mpr ⟨hr, by simp [hval]⟩
            have hr0g : r0 ∈ rows.filter (fun x => x.value == v) :=
              List.mem_filter.mpr ⟨hr0, by simp [hr0v]⟩
            cases hg : rows.filter (fun x => x.value == v) with
            | nil => rw [hg] at hrg; cases hrg
            | cons x xt =>
              rw [hg] at hrg hr0g hle
              simp only [List.length_cons] at hle
              have hxt : xt = [] := List.eq_nil_of_length_eq_zero (by omega)
              subst hxt
              have h1 := List.mem_singleton.mp hrg
              have h2 := List.mem_singleton.mp hr0g
              exact hid (by rw [h1, h2])
        · intro hfalse
          exact absurd hfalse hid
    rw [List.filter_congr hcongr]
    exact filter_id_eq hids hr0

/-- C4 (witness): the spec's concrete scenario — rows with ids 5 and 9 for
`x.com`; only the row with id 5 survives. -/
theorem C4_witness :
    ∃ r, r ∈ [(⟨5, lit "x.com", lit "active", lit "s"⟩ : BRow),
              ⟨9, lit "x.com", lit "active", lit "s"⟩] ∧
      r.value = lit "x.com" ∧
      Importer.listMin? (Importer.groupIds [⟨5, lit "x.com", lit "active", lit "s"⟩,
        ⟨9, lit "x.com", lit "active", lit "s"⟩] (lit "x.com")) = some r.id ∧
      (Importer.remove_database_duplicates [⟨5, lit "x.com", lit "active", lit "s"⟩,
        ⟨9, lit "x.com", lit "active", lit "s"⟩]).1.filter (fun x => x.value == lit "x.com")
        = [r] :=
  C4_dedup_keeps_min
    [⟨5, lit "x.com", lit "active", lit "s"⟩, ⟨9, lit "x.com", lit "active", lit "s"⟩]
    (by decide) (lit "x.com") (by decide)

/-! ## Claim C2 — idempotence of normalization -/

/-- Lowercasing cannot produce or destroy a code point that is neither a
lowercase nor an uppercase ASCII letter. -/
theorem lowerC_eq_iff {d : Nat} (hd1 : ¬(97 ≤ d ∧ d ≤ 122)) (hd2 : ¬(65 ≤ d ∧ d ≤ 90))
    (c : Nat) : lowerC c = d ↔ c = d := by
  unfold lowerC
  split_ifs with h <;> omega

theorem beq_lowerC {d : Nat} (hd1 : ¬(97 ≤ d ∧ d ≤ 122)) (hd2 : ¬(65 ≤ d ∧ d ≤ 90))
    (c : Nat) : (lowerC c == d) = (c == d) := by
  rw [Bool.eq_iff_iff]
  simp only [beq_iff_eq]
  exact lowerC_eq_iff hd1 hd2 c

theorem bne_lowerC {d : Nat} (hd1 : ¬(97 ≤ d ∧ d ≤ 122)) (hd2 : ¬(65 ≤ d ∧ d ≤ 90))
    (c : Nat) : (lowerC c != d) = (c != d) := by
  rw [bne, bne, beq_lowerC hd1 hd2]

theorem emailLocalChar_lowerC (c : Nat) : emailLocalChar (lowerC c) = emailLocalChar c := by
  unfold emailLocalChar isAsciiAlpha isAsciiDigit lowerC
  split_ifs with h
  · rw [Bool.eq_iff_iff]
    simp only [Bool.or_eq_true, decide_eq_true_eq]
    omega
  · rfl

theorem emailDomChar_lowerC (c : Nat) : emailDomChar (lowerC c) = emailDomChar c := by
  unfold emailDomChar isAsciiAlpha isAsciiDigit lowerC
  split_ifs with h
  · rw [Bool.eq_iff_iff]
    simp only [Bool.or_eq_true, decide_eq_true_eq]
    omega
  · rfl

theorem isAsciiAlpha_lowerC (c : Nat) : isAsciiAlpha (lowerC c) = isAsciiAlpha c := by
  unfold isAsciiAlpha lowerC
  split_ifs with h
  · rw [Bool.eq_iff_iff]
    simp only [decide_eq_true_eq]
    omega
  · rfl

theorem tldRev_lower (r2 : Str) : tldRev (lowerStr r2) = lowerStr (tldRev r2) := by
  unfold tldRev lowerStr
  rw [← List.map_reverse, List.takeWhile_map,
    show ((fun x : Nat => x != 46) ∘ lowerC) = (fun x : Nat => x != 46) from
      funext fun c => bne_lowerC (by omega) (by omega) c]

theorem midPart_lower (r2 : Str) : midPart (lowerStr r2) = lowerStr (midPart r2) := by
  unfold midPart lowerStr
  rw [← List.map_reverse, List.dropWhile_map,
    show ((fun x : Nat => x != 46) ∘ lowerC) = (fun x : Nat => x != 46) from
      funext fun c => bne_lowerC (by omega) (by omega) c,
    ← List.map_drop, List.map_reverse]

theorem isEmpty_lowerStr (l : Str) : (lowerStr l).isEmpty = l.isEmpty := by
  cases l <;> rfl

theorem emailTail2_lower (r2 : Str) : emailTail2 (lowerStr r2) = emailTail2 r2 := by
  unfold emailTail2
  rw [tldRev_lower, midPart_lower, isEmpty_lowerStr]
  unfold lowerStr
  rw [List.length_map, List.length_map, List.all_map, List.all_map,
    show (emailDomChar ∘ lowerC) = emailDomChar from funext emailDomChar_lowerC,
    show (isAsciiAlpha ∘ lowerC) = isAsciiAlpha from funext isAsciiAlpha_lowerC]

theorem emailTail_lower (r : Str) : emailTail (lowerStr r) = emailTail r := by
  unfold emailTail
  have hlast : ((lowerStr r).getLast? == some 10) = (r.getLast? == some 10) := by
    unfold lowerStr
    rw [List.getLast?_map]
    cases r.getLast? with
    | none => rfl
    | some c =>
      rw [Bool.eq_iff_iff]
      simp only [Option.map_some', beq_iff_eq, Option.some.injEq]
      exact lowerC_eq_iff (by omega) (by omega) c
  rw [hlast]
  cases hl : (r.getLast? == some 10) with
  | true =>
    simp only [if_true]
    rw [show (lowerStr r).dropLast = lowerStr r.dropLast from (List.map_dropLast _ _).symm]
    exact emailTail2_lower r.dropLast
  | false =>
    simp only [Bool.false_eq_true, if_false]
    exact emailTail2_lower r

/-- Python `str.lower` does not change whether the email regex matches. -/
theorem emailMatch_lower (s : Str) : emailMatch (lowerStr s) = emailMatch s := by
  unfold emailMatch
  have htake : (lowerStr s).takeWhile emailLocalChar = lowerStr (s.takeWhile emailLocalChar) := by
    unfold lowerStr
    rw [List.takeWhile_map,
      show (emailLocalChar ∘ lowerC) = emailLocalChar from funext emailLocalChar_lowerC]
  rw [htake, show (lowerStr (s.takeWhile emailLocalChar)).length
    = (s.takeWhile emailLocalChar).length from List.length_map _ _]
  rw [show (lowerStr s).drop (s.takeWhile emailLocalChar).length
    = lowerStr (s.drop (s.takeWhile emailLocalChar).length) from (List.map_drop _ _ _).symm]
  cases hdrop : s.drop (s.takeWhile emailLocalChar).length with
  | nil => rfl
  | cons a r =>
    show ((lowerC a == 64) && _ && emailTail (lowerStr r)) = _
    rw [beq_lowerC (by omega) (by omega), emailTail_lower, isEmpty_lowerStr]

theorem takeWhile_all {p : Nat → Bool} {l : Str} (h : ∀ c ∈ l, p c = true) :
    l.takeWhile p = l := by
  induction l with
  | nil => rfl
  | cons a t ih =>
    rw [List.takeWhile_cons, h a (List.mem_cons_self a t)]
    simp only [if_true]
    rw [ih fun c hc => h c (List.mem_cons_of_mem a hc)]

theorem afterLastAt_all {s : Str} (h : ∀ c ∈ s, (c != 64) = true) : afterLastAt s = s := by
  unfold afterLastAt
  rw [takeWhile_all fun c hc => h c (List.mem_reverse.mp hc), List.reverse_reverse]

theorem mem_afterLastAt {s : Str} {c : Nat} (h : c ∈ afterLastAt s) :
    c ∈ s ∧ (c != 64) = true := by
  unfold afterLastAt at h
  rw [List.mem_reverse] at h
  have hp := List.mem_takeWhile_imp h
  exact ⟨List.mem_reverse.mp ((List.takeWhile_sublist _).subset h), by simpa using hp⟩

theorem mem_hostnameOf {netloc : Str} {c : Nat} (h : c ∈ hostnameOf netloc) :
    c ∈ netloc ∧ (c != 64) = true := by
  unfold hostnameOf at h
  split at h
  · have h1 := (List.takeWhile_sublist _).subset h
    have h2 := List.mem_of_mem_drop h1
    have h3 := (List.dropWhile_sublist _).subset h2
    exact mem_afterLastAt h3
  · exact mem_afterLastAt ((List.takeWhile_sublist _).subset h)

theorem mem_splitScheme {u : Str} {c : Nat} (h : c ∈ splitScheme u) : c ∈ u := by
  unfold splitScheme at h
  split at h
  · rename_i rest heq
    split at h
    · exact h
    · split at h
      · have h2 : c ∈ u.dropWhile (· != 58) := by
          rw [heq]
          exact List.mem_cons_of_mem 58 h
        exact (List.dropWhile_sublist _).subset h2
      · exact h
  · exact h

theorem mem_netlocOf {u : Str} {c : Nat} (h : c ∈ netlocOf u) :
    c ∈ u ∧ (!(c == 47 || c == 63 || c == 35)) = true := by
  unfold netlocOf at h
  split at h
  · rename_i r heq
    have hp := List.mem_takeWhile_imp h
    have h1 : c ∈ splitScheme u := by
      rw [heq]
      exact List.mem_cons_of_mem 47 (List.mem_cons_of_mem 47 ((List.takeWhile_sublist _).subset h))
    exact ⟨mem_splitScheme h1, hp⟩
  · cases h

theorem mem_cleanUrl {u : Str} {c : Nat} (h : c ∈ cleanUrl u) :
    c ∈ u ∧ (!(c == 9 || c == 13 || c == 10)) = true := by
  unfold cleanUrl at h
  exact ⟨(List.mem_filter.mp h).1, (List.mem_filter.mp h).2⟩

/-- Structure of a successful `urlparse(...).hostname`: the hostname is
nonempty, lowercased, and contains none of the delimiter code points that
the netloc extraction stops at. -/
theorem pyHostnameCore_ok_inv {u h0 : Str} (h : pyHostnameCore u = .ok h0) :
    h0 ≠ [] ∧ ∀ c ∈ h0,
      c ≠ 47 ∧ c ≠ 63 ∧ c ≠ 35 ∧ c ≠ 64 ∧ c ≠ 9 ∧ c ≠ 13 ∧ c ≠ 10 := by
  unfold pyHostnameCore at h
  split at h
  · split at h
    · cases h
    · rename_i hne
      injection h with h
      subst h
      refine ⟨fun hcon => hne (List.map_eq_nil_iff.mp hcon), ?_⟩
      intro c hc
      rcases List.mem_map.mp hc with ⟨c0, hc0, rfl⟩
      have hhost := mem_hostnameOf hc0
      have hnet := mem_netlocOf hhost.1
      have hcl := mem_cleanUrl hnet.1
      have h64 : c0 ≠ 64 := by simpa using hhost.2
      have hmid : c0 ≠ 47 ∧ c0 ≠ 63 ∧ c0 ≠ 35 := by
        have := hnet.2
        simp only [Bool.or_eq_true, Bool.not_eq_true', Bool.or_eq_false_iff,
          beq_eq_false_iff_ne, ne_eq] at this
        exact ⟨this.1.1, this.1.2, this.2⟩
      have hws : c0 ≠ 9 ∧ c0 ≠ 13 ∧ c0 ≠ 10 := by
        have := hcl.2
        simp only [Bool.or_eq_true, Bool.not_eq_true', Bool.or_eq_false_iff,
          beq_eq_false_iff_ne, ne_eq] at this
        exact ⟨this.1.1, this.1.2, this.2⟩
      refine ⟨?_, ?_, ?_, ?_, ?_, ?_, ?_⟩ <;>
        [ exact fun he => hmid.1 ((lowerC_eq_iff (by omega) (by omega) c0).mp he);
          exact fun he => hmid.2.1 ((lowerC_eq_iff (by omega) (by omega) c0).mp he);
          exact fun he => hmid.2.2 ((lowerC_eq_iff (by omega) (by omega) c0).mp he);
          exact fun he => h64 ((lowerC_eq_iff (by omega) (by omega) c0).mp he);
          exact fun he => hws.1 ((lowerC_eq_iff (by omega) (by omega) c0).mp he);
          exact fun he => hws.2.1 ((lowerC_eq_iff (by omega) (by omega) c0).mp he);
          exact fun he => hws.2.2 ((lowerC_eq_iff (by omega) (by omega) c0).mp he) ]
  · cases h

/-- Evaluation of `urlparse('http://' + h).hostname` for a string `h` free
of every delimiter the parser splits at: the hostname is `h` lowercased. -/
theorem pyHostnameCore_http (h : Str) (hne : h ≠ [])
    (h47 : 47 ∉ h) (h63 : 63 ∉ h) (h35 : 35 ∉ h) (h64 : 64 ∉ h) (h58 : 58 ∉ h)
    (h91 : 91 ∉ h) (h93 : 93 ∉ h) (h9 : 9 ∉ h) (h13 : 13 ∉ h) (h10 : 10 ∉ h) :
    pyHostnameCore (lit "http://" ++ h) = .ok (lowerStr h) := by
  have hclean : cleanUrl (lit "http://" ++ h) = lit "http://" ++ h := by
    unfold cleanUrl
    rw [List.filter_append]
    have h1 : (lit "http://").filter (fun c => !(c == 9 || c == 13 || c == 10))
        = lit "http://" := rfl
    have h2 : h.filter (fun c => !(c == 9 || c == 13 || c == 10)) = h := by
      rw [List.filter_eq_self]
      intro c hc
      simp only [Bool.or_eq_true, Bool.not_eq_true', Bool.or_eq_false_iff, beq_eq_false_iff_ne,
        ne_eq]
      exact ⟨⟨fun he => h9 (he ▸ hc), fun he => h13 (he ▸ hc)⟩, fun he => h10 (he ▸ hc)⟩
    rw [h1, h2]
  have hss : splitScheme (lit "http://" ++ h) = 47 :: 47 :: h := by
    have hd : List.dropWhile (· != 58) (lit "http://" ++ h) = 58 :: 47 :: 47 :: h := by
      show List.dropWhile (· != 58) (104 :: 116 :: 116 :: 112 :: 58 :: 47 :: 47 :: h) = _
      simp [List.dropWhile_cons]
    have ht : List.takeWhile (· != 58) (lit "http://" ++ h) = [104, 116, 116, 112] := by
      show List.takeWhile (· != 58) (104 :: 116 :: 116 :: 112 :: 58 :: 47 :: 47 :: h) = _
      simp [List.takeWhile_cons]
    unfold splitScheme
    rw [hd, ht]
    rfl
  have hnet : netlocOf (cleanUrl (lit "http://" ++ h)) = h := by
    rw [hclean]
    unfold netlocOf
    rw [hss]
    exact takeWhile_all fun c hc => by
      simp only [Bool.or_eq_true, Bool.not_eq_true', Bool.or_eq_false_iff, beq_eq_false_iff_ne,
        ne_eq]
      exact ⟨⟨fun he => h47 (he ▸ hc), fun he => h63 (he ▸ hc)⟩, fun he => h35 (he ▸ hc)⟩
  have hafter : afterLastAt h = h :=
    afterLastAt_all fun c hc => by
      simp only [bne_iff_ne, ne_eq]
      exact fun he => h64 (he ▸ hc)
  have hhost : hostnameOf h = h := by
    unfold hostnameOf
    rw [hafter, if_neg h91]
    exact takeWhile_all fun c hc => by
      simp only [bne_iff_ne, ne_eq]
      exact fun he => h58 (he ▸ hc)
  unfold pyHostnameCore
  rw [hnet, hhost, if_pos (iff_of_false h91 h93), if_neg hne]

/-- Structure of a successful API-side domain normalization: the key is
lowercase-fixed and free of every delimiter the parser splits at. -/
theorem normalize_domain_inv {raw h : Str} (hn : App.normalize_domain raw = some h) :
    lowerStr h = h ∧ ∀ c ∈ h,
      c ≠ 47 ∧ c ≠ 63 ∧ c ≠ 35 ∧ c ≠ 64 ∧ c ≠ 9 ∧ c ≠ 13 ∧ c ≠ 10 := by
  unfold App.normalize_domain at hn
  split at hn
  · cases hn
  · unfold App.appFinish at hn
    split at hn
    · rename_i h0 hcore
      injection hn with hn
      subst hn
      have hprops := pyHostnameCore_ok_inv hcore
      constructor
      · split
        · rw [← lowerStr_drop, lowerStr_idem, lowerStr_drop]
        · exact lowerStr_idem _
      · intro c hc
        have hc0 : c ∈ lowerStr h0 := by
          revert hc
          split
          · exact fun hc => List.mem_of_mem_drop hc
          · exact fun hc => hc
        rcases List.mem_map.mp hc0 with ⟨c1, hc1, rfl⟩
        have hp := hprops.2 c1 hc1
        refine ⟨?_, ?_, ?_, ?_, ?_, ?_, ?_⟩ <;>
          [ exact fun he => hp.1 ((lowerC_eq_iff (by omega) (by omega) c1).mp he);
            exact fun he => hp.2.1 ((lowerC_eq_iff (by omega) (by omega) c1).mp he);
            exact fun he => hp.2.2.1 ((lowerC_eq_iff (by omega) (by omega) c1).mp he);
            exact fun he => hp.2.2.2.1 ((lowerC_eq_iff (by omega) (by omega) c1).mp he);
            exact fun he => hp.2.2.2.2.1 ((lowerC_eq_iff (by omega) (by omega) c1).mp he);
            exact fun he => hp.2.2.2.2.2.1 ((lowerC_eq_iff (by omega) (by omega) c1).mp he);
            exact fun he => hp.2.2.2.2.2.2 ((lowerC_eq_iff (by omega) (by omega) c1).mp he) ]
    · cases hn

/-- C2 (counterexample): both `normalize_domain` variants strip only a
single leading `www.` label, so `www.www.example.com` normalizes to
`www.example.com`, which re-normalizes to `example.com` — normalization is
not idempotent. -/
theorem C2_counterexample :
    App.normalize_domain (lit "www.www.example.com") = some (lit "www.example.com") ∧
    App.normalize_domain (lit "www.example.com") = some (lit "example.com") ∧
    Importer.normalize_domain (lit "www.www.example.com") = some (lit "www.example.com") ∧
    Importer.normalize_domain (lit "www.example.com") = some (lit "example.com") ∧
    lit "example.com" ≠ lit "www.example.com" := by
  refine ⟨by decide, by decide, by decide, by decide, by decide⟩

/-- C2 (amended): email normalization is idempotent; the API-side domain
normalization is idempotent for every raw input whose normalized value is
nonempty, does not itself begin with `www.`, and contains no `:` (58), `[`
(91) or `]` (93) — the excluded values (a second `www.` label, an empty
result of `www.`-stripping, a bracketed or colon-carrying host) genuinely
re-normalize to something else. -/
theorem C2_normalize_idempotent :
    (∀ raw h : Str, normalizeApp .email raw = some h → normalizeApp .email h = some h) ∧
    (∀ raw h : Str, normalizeApp .domain raw = some h → h ≠ [] →
      strStarts h (lit "www.") = false → 58 ∉ h → 91 ∉ h → 93 ∉ h →
      normalizeApp .domain h = some h) := by
  constructor
  · intro raw h hn
    simp only [normalizeApp, App.is_valid_email] at hn ⊢
    split at hn
    · rename_i hm
      injection hn with hn
      subst hn
      rw [if_pos (by rw [emailMatch_lower]; exact hm), lowerStr_idem]
    · cases hn
  · intro raw h hn hne hwww h58 h91 h93
    have hinv := normalize_domain_inv hn
    have hchar : ∀ c ∈ h, c ≠ 47 ∧ c ≠ 63 ∧ c ≠ 35 ∧ c ≠ 64 ∧ c ≠ 9 ∧ c ≠ 13 ∧ c ≠ 10 :=
      hinv.2
    show App.normalize_domain h = some h
    unfold App.normalize_domain
    rw [if_neg hne]
    have hhas : strHas h (lit "://") = false := by
      rw [← Bool.not_eq_true]
      intro hcon
      exact h58 (mem_of_strHas hcon (by decide))
    rw [hhas]
    simp only [Bool.false_eq_true, if_false]
    unfold App.appFinish
    rw [pyHostnameCore_http h hne
      (fun hc => ((hchar 47 hc).1) rfl)
      (fun hc => ((hchar 63 hc).2.1) rfl)
      (fun hc => ((hchar 35 hc).2.2.1) rfl)
      (fun hc => ((hchar 64 hc).2.2.2.1) rfl)
      h58 h91 h93
      (fun hc => ((hchar 9 hc).2.2.2.2.1) rfl)
      (fun hc => ((hchar 13 hc).2.2.2.2.2.1) rfl)
      (fun hc => ((hchar 10 hc).2.2.2.2.2.2) rfl)]
    show some (if strStarts (lowerStr (lowerStr h)) (lit "www.") = true
        then (lowerStr (lowerStr h)).drop 4 else lowerStr (lowerStr h)) = some h
    rw [lowerStr_idem, hinv.1, hwww]
    simp

/-- C2 (witness): idempotence instantiated at concrete email and domain
inputs through the amended theorem. -/
theorem C2_witness :
    normalizeApp .email (lit "A@B.co") = some (lit "a@b.co") ∧
    normalizeApp .email (lit "a@b.co") = some (lit "a@b.co") ∧
    normalizeApp .domain (lit "HTTP://Example.com/x") = some (lit "example.com") ∧
    normalizeApp .domain (lit "example.com") = some (lit "example.com") := by
  refine ⟨by decide,
    C2_normalize_idempotent.1 (lit "A@B.co") (lit "a@b.co") (by decide),
    by decide,
    C2_normalize_idempotent.2 (lit "HTTP://Example.com/x") (lit "example.com")
      (by decide) (by decide) (by decide) (by decide) (by decide) (by decide)⟩
